import Mathlib

/-!
Verification of the sitemap-crawler core (src/main.rs).

The Rust program discovers page URLs from a sitemap (possibly a sitemap
index), fetches each page under a bounded concurrency limit, and reports
per-page outcomes.  External collaborators (HTTP transport via reqwest,
XML decoding via quick-xml/serde, URL parsing via the url crate, the
filesystem) are modelled as oracle functions; the control flow of the
repository's own functions is translated faithfully.
-/

namespace SitemapCrawler

/-- Oracles for the external collaborators of sitemap discovery:
`fetch_sitemap` models `fetch_sitemap` (GET + 2xx check + text decode);
`none` is any transport error or non-success status.  `decode_index`
models `quick_xml::de::from_str::<SitemapIndex>` returning the `loc`
values of the `<sitemap>` entries in document order; `decode_urlset`
models `from_str::<Urlset>` returning the `loc` values of the `<url>`
entries in document order.  `none` models a decode error. -/
structure SitemapEnv where
  fetch_sitemap : String → Option String
  decode_index : String → Option (List String)
  decode_urlset : String → Option (List String)

/-- Translation of `parse_single_sitemap`: fetch the sitemap content and
decode it as a url-set, returning its `loc` values; any failure
propagates as `none` (Rust `Err`). -/
def parse_single_sitemap (env : SitemapEnv) (sitemap_url : String) :
    Option (List String) :=
  match env.fetch_sitemap sitemap_url with
  | none => none
  | some content => env.decode_urlset content

/-- The page URLs a child sitemap entry contributes inside the index loop
of `parse_sitemap_urls`: its parsed url-set on success, nothing on
failure (the `Err` arm only logs and continues). -/
def child_contribution (env : SitemapEnv) (loc : String) : List String :=
  match parse_single_sitemap env loc with
  | some urls => urls
  | none => []

/-- Translation of `parse_sitemap_urls`: fetch the root document; if it
decodes as a sitemap index, append each child's contribution in entry
order; otherwise parse the root as a single url-set. -/
def parse_sitemap_urls (env : SitemapEnv) (sitemap_url : String) :
    Option (List String) :=
  match env.fetch_sitemap sitemap_url with
  | none => none
  | some content =>
    match env.decode_index content with
    | some sitemaps =>
        some (sitemaps.foldl (fun acc loc => acc ++ child_contribution env loc) [])
    | none => parse_single_sitemap env sitemap_url

/-- The sequence of sitemap URLs fetched by `parse_sitemap_urls`, in
order: the root once, then (in the index case) one fetch per child entry
inside `parse_single_sitemap`, or (in the url-set case) the root a second
time, since the fallback re-invokes `parse_single_sitemap` on it. -/
def sitemap_fetch_trace (env : SitemapEnv) (sitemap_url : String) :
    List String :=
  match env.fetch_sitemap sitemap_url with
  | none => [sitemap_url]
  | some content =>
    match env.decode_index content with
    | some sitemaps => sitemap_url :: sitemaps
    | none => [sitemap_url, sitemap_url]

theorem foldl_append_eq_join {α β : Type} (f : α → List β) :
    ∀ (l : List α) (acc : List β),
      l.foldl (fun a x => a ++ f x) acc = acc ++ (l.map f).flatten
  | [], acc => by simp
  | x :: xs, acc => by
      simp [List.foldl_cons, foldl_append_eq_join f xs (acc ++ f x),
        List.append_assoc]

/-- C1: a root document that the index decoder rejects is parsed as a
url-set, and `parse_sitemap_urls` returns exactly its `loc` values, in
document order, with no deduplication. -/
theorem urlset_locs_returned_verbatim (env : SitemapEnv)
    (root content : String) (locs : List String)
    (hf : env.fetch_sitemap root = some content)
    (hi : env.decode_index content = none)
    (hu : env.decode_urlset content = some locs) :
    parse_sitemap_urls env root = some locs := by
  simp [parse_sitemap_urls, parse_single_sitemap, hf, hi, hu]

/-- Witness for C1 at a concrete environment whose url-set holds a
repeated `loc`: the repeated PageURL appears twice in the result. -/
theorem urlset_locs_returned_verbatim_witness :
    parse_sitemap_urls
      ⟨fun u => if u = "r" then some "doc" else none,
       fun _ => none,
       fun c => if c = "doc" then some ["a", "b", "a"] else none⟩ "r"
      = some ["a", "b", "a"] :=
  urlset_locs_returned_verbatim _ "r" "doc" ["a", "b", "a"] rfl rfl rfl

/-- C2: on a sitemap-index document with `K` child entries the parser
fetches each of the `K` children exactly once, in document order (the
fetch trace is the root followed by the child locs), and returns the
concatenation of the children's contributions in that order; a failed
child contributes `[]` without disturbing the others, and the run is
never aborted (the result is `some`). -/
theorem index_children_concatenated (env : SitemapEnv)
    (root content : String) (sitemaps : List String) (K : Nat)
    (hf : env.fetch_sitemap root = some content)
    (hi : env.decode_index content = some sitemaps)
    (hK : sitemaps.length = K) :
    parse_sitemap_urls env root
        = some ((sitemaps.map (child_contribution env)).flatten)
      ∧ sitemap_fetch_trace env root = root :: sitemaps
      ∧ (sitemap_fetch_trace env root).length = K + 1 := by
  refine ⟨?_, ?_, ?_⟩
  · simp [parse_sitemap_urls, hf, hi, foldl_append_eq_join]
  · simp [sitemap_fetch_trace, hf, hi]
  · simp [sitemap_fetch_trace, hf, hi, hK]

/-- Witness for C2: an index with two children, the second of which fails
to fetch and contributes nothing. -/
theorem index_children_concatenated_witness :
    parse_sitemap_urls
      ⟨fun u => if u = "r" then some "idx" else if u = "c1" then some "s1" else none,
       fun c => if c = "idx" then some ["c1", "c2"] else none,
       fun c => if c = "s1" then some ["p1", "p2"] else none⟩ "r"
      = some ["p1", "p2"]
      ∧ sitemap_fetch_trace
          ⟨fun u => if u = "r" then some "idx" else if u = "c1" then some "s1" else none,
           fun c => if c = "idx" then some ["c1", "c2"] else none,
           fun c => if c = "s1" then some ["p1", "p2"] else none⟩ "r"
        = ["r", "c1", "c2"] := by
  have h := index_children_concatenated
    ⟨fun u => if u = "r" then some "idx" else if u = "c1" then some "s1" else none,
     fun c => if c = "idx" then some ["c1", "c2"] else none,
     fun c => if c = "s1" then some ["p1", "p2"] else none⟩
    "r" "idx" ["c1", "c2"] 2 rfl rfl rfl
  refine ⟨?_, h.2.1⟩
  have h1 := h.1
  simp only [List.map, List.flatten] at h1
  simpa [child_contribution, parse_single_sitemap] using h1

/-- A parsed URL at the interface `url_to_filename` uses from the url
crate: `host_str()` (absent for host-less URLs) and `path()`. -/
structure ParsedUrl where
  host : Option String
  path : String
deriving DecidableEq

/-- The sentinel `Url::parse("http://example.com").unwrap()` used as the
fallback when the input URL fails to parse: host `example.com`,
path `/`.  (The url crate parses this literal infallibly, which is what
the `.unwrap()` in the source relies on.) -/
def fallback_url : ParsedUrl := ⟨some "example.com", "/"⟩

/-- One character of the sanitisation step of `url_to_filename`:
alphanumeric characters (ASCII reading of Rust's `char::is_alphanumeric`),
`_`, `-` and `.` are kept, everything else becomes `_`. -/
def sanitize_char (c : Char) : Char :=
  if c.isAlphanum || c = '_' || c = '-' || c = '.' then c else '_'

/-- The base filename `url_to_filename` derives from a parsed URL:
`host_str()` (or `"unknown"` when absent) concatenated with the path,
slashes replaced by underscores (Rust `replace('/', "_")` with a
one-character pattern and replacement, i.e. a per-character rewrite),
then sanitised character-wise (`.chars().map(..).collect()`). -/
def base_filename (p : ParsedUrl) : String :=
  ⟨(((p.host.getD "unknown") ++ p.path).data.map
      (fun c => if c = '/' then '_' else c)).map sanitize_char⟩

/-- The candidate filename the collision loop of `url_to_filename` tries
at counter value `k`: the unsuffixed base for `k = 1`, and
`format!("{}_{}", filename, k)` for `k ≥ 2`. -/
def candidate (filename : String) (k : Nat) : String :=
  if k = 1 then filename else filename ++ "_" ++ Nat.repr k

/-- The `while used_names.contains(&final_filename)` loop of
`url_to_filename`, made structurally recursive on explicit fuel: while
the current candidate is taken, move to `format!("{}_{}", filename,
counter)` and bump the counter.  `fresh_name` supplies fuel
`used.length + 1`, which always suffices to reach the exit branch
because the candidates are pairwise distinct. -/
def fresh_from (filename : String) (used : List String) :
    Nat → String → Nat → String
  | 0, cur, _ => cur
  | fuel + 1, cur, counter =>
      if used.contains cur then
        fresh_from filename used fuel
          (filename ++ "_" ++ Nat.repr counter) (counter + 1)
      else cur

/-- The collision-resolution part of `url_to_filename`: first candidate
is the base itself, the counter starts at 2. -/
def fresh_name (filename : String) (used : List String) : String :=
  fresh_from filename used (used.length + 1) filename 2

/-- Translation of `url_to_filename`, parameterised by the url-crate
parse oracle: parse the URL (falling back to the sentinel), derive the
base filename, resolve collisions against `used_names`, and insert the
chosen name before returning it.  The Rust `HashSet<String>` is modelled
as a list with `contains` membership and cons insertion. -/
def url_to_filename (parse : String → Option ParsedUrl) (url : String)
    (used_names : List String) : String × List String :=
  let parsed_url := (parse url).getD fallback_url
  let filename := base_filename parsed_url
  let final_filename := fresh_name filename used_names
  (final_filename, final_filename :: used_names)

/-- A sequence of `url_to_filename` calls against one registry,
returning the filenames in call order together with the final
registry. -/
def run_resolver (parse : String → Option ParsedUrl) :
    List String → List String → List String × List String
  | [], used => ([], used)
  | u :: rest, used =>
    let r := url_to_filename parse u used
    let rs := run_resolver parse rest r.2
    (r.1 :: rs.1, rs.2)

/-! Injectivity of `Nat.repr`, needed to tell the collision candidates
apart: decoding the digit string of `toDigitsCore` recovers the number. -/

def digit_val (c : Char) : Nat := c.toNat - 48

def decode_digits (l : List Char) : Nat :=
  l.foldl (fun a c => 10 * a + digit_val c) 0

theorem toDigitsCore_append (b : Nat) :
    ∀ (fuel n : Nat) (l : List Char),
      Nat.toDigitsCore b fuel n l = Nat.toDigitsCore b fuel n [] ++ l
  | 0, _, _ => by simp [Nat.toDigitsCore]
  | fuel + 1, n, l => by
      simp only [Nat.toDigitsCore]
      by_cases h : n / b = 0
      · simp [h]
      · simp only [h, if_false]
        rw [toDigitsCore_append b fuel (n / b) (Nat.digitChar (n % b) :: l),
          toDigitsCore_append b fuel (n / b) [Nat.digitChar (n % b)],
          List.append_assoc]
        rfl

theorem digit_val_digitChar {d : Nat} (h : d < 10) :
    digit_val (Nat.digitChar d) = d := by
  interval_cases d <;> rfl

theorem decode_toDigitsCore :
    ∀ (fuel n : Nat), n < fuel →
      decode_digits (Nat.toDigitsCore 10 fuel n []) = n
  | 0, n, h => absurd h (Nat.not_lt_zero n)
  | fuel + 1, n, h => by
      simp only [Nat.toDigitsCore]
      by_cases hdiv : n / 10 = 0
      · have hn : n < 10 := by omega
        simp [hdiv, decode_digits, digit_val_digitChar hn, Nat.mod_eq_of_lt hn]
      · have hpos : 0 < n := by
          rcases Nat.eq_zero_or_pos n with h0 | h0
          · subst h0; simp at hdiv
          · exact h0
        have hlt : n / 10 < fuel :=
          Nat.lt_of_lt_of_le (Nat.div_lt_self hpos (by omega)) (by omega)
        simp only [hdiv, if_false]
        rw [toDigitsCore_append 10 fuel (n / 10) [Nat.digitChar (n % 10)]]
        have hm : n % 10 < 10 := Nat.mod_lt n (by omega)
        simp only [decode_digits] at decode_toDigitsCore ⊢
        rw [List.foldl_append, decode_toDigitsCore fuel (n / 10) hlt]
        simp [digit_val_digitChar hm]
        omega

theorem nat_repr_injective {m n : Nat} (h : Nat.repr m = Nat.repr n) :
    m = n := by
  have hdata : Nat.toDigits 10 m = Nat.toDigits 10 n :=
    congrArg String.data h
  have hm := decode_toDigitsCore (m + 1) m (Nat.lt_succ_self m)
  have hn := decode_toDigitsCore (n + 1) n (Nat.lt_succ_self n)
  simp only [Nat.toDigits] at hdata
  rw [← hm, ← hn, hdata]

theorem candidate_injective (filename : String) {j k : Nat}
    (h : candidate filename j = candidate filename k) : j = k := by
  unfold candidate at h
  have hu : String.length "_" = 1 := rfl
  by_cases h1 : j = 1 <;> by_cases h2 : k = 1
  · omega
  · rw [if_pos h1, if_neg h2] at h
    have hlen := congrArg String.length h
    rw [String.length_append, String.length_append, hu] at hlen
    omega
  · rw [if_neg h1, if_pos h2] at h
    have hlen := congrArg String.length h
    rw [String.length_append, String.length_append, hu] at hlen
    omega
  · rw [if_neg h1, if_neg h2] at h
    have hd := congrArg String.data h
    simp only [String.data_append, List.append_assoc] at hd
    have hd2 := List.append_cancel_left hd
    have hd3 := List.append_cancel_left hd2
    exact nat_repr_injective (String.ext hd3)

theorem contains_eq_true_iff {l : List String} {s : String} :
    l.contains s = true ↔ s ∈ l := by
  simp [List.contains, List.elem_iff]

theorem contains_eq_false_iff {l : List String} {s : String} :
    l.contains s = false ↔ s ∉ l := by
  rw [← Bool.not_eq_true, not_iff_not, contains_eq_true_iff]

/-- The collision loop, started at candidate `j` with counter `j + 1`,
returns the first free candidate `t` provided every candidate strictly
between `j` and `t` is taken and the fuel covers the distance. -/
theorem fresh_from_finds (filename : String) (used : List String) :
    ∀ (fuel j t : Nat), 1 ≤ j → j ≤ t →
      (∀ m, j ≤ m → m < t → used.contains (candidate filename m) = true) →
      used.contains (candidate filename t) = false →
      t - j < fuel →
      fresh_from filename used fuel (candidate filename j) (j + 1)
        = candidate filename t
  | 0, j, t, _, _, _, _, hfuel => by omega
  | fuel + 1, j, t, hj, hjt, hmem, hfree, hfuel => by
      by_cases heq : j = t
      · subst heq
        simp only [fresh_from]
        rw [hfree]
        simp
      · have hlt : j < t := by omega
        have hcur : used.contains (candidate filename j) = true :=
          hmem j le_rfl hlt
        have hcand : filename ++ "_" ++ Nat.repr (j + 1)
            = candidate filename (j + 1) := by
          unfold candidate
          rw [if_neg (by omega)]
        simp only [fresh_from, hcur, if_true]
        rw [hcand]
        exact fresh_from_finds filename used fuel (j + 1) t (by omega) hlt
          (fun m hm1 hm2 => hmem m (by omega) hm2) hfree (by omega)

/-- `fresh_name` (fuel `used.length + 1`, first candidate the base
itself, counter starting at 2) returns the first free candidate. -/
theorem fresh_name_finds (filename : String) (used : List String) (t : Nat)
    (ht : 1 ≤ t)
    (hmem : ∀ m, 1 ≤ m → m < t → used.contains (candidate filename m) = true)
    (hfree : used.contains (candidate filename t) = false)
    (hle : t ≤ used.length + 1) :
    fresh_name filename used = candidate filename t :=
  fresh_from_finds filename used (used.length + 1) 1 t le_rfl ht hmem hfree
    (by omega)

/-- Generalised induction for C4: after `i` same-base calls the registry
holds the first `i` candidates (most recent first) in front of the
original registry `R`, and the remaining calls receive candidates
`i + 1`, `i + 2`, …  in order. -/
theorem run_resolver_same_base_aux (parse : String → Option ParsedUrl)
    (base : String) (R : List String) (urls : List String) :
    ∀ (i : Nat),
      (∀ u ∈ urls, base_filename ((parse u).getD fallback_url) = base) →
      (∀ k, i + 1 ≤ k → k ≤ i + urls.length →
        R.contains (candidate base k) = false) →
      run_resolver parse urls
          (((List.range' 1 i).map (candidate base)).reverse ++ R)
        = ((List.range' (i + 1) urls.length).map (candidate base),
           ((List.range' 1 (i + urls.length)).map (candidate base)).reverse
             ++ R) := by
  induction urls with
  | nil => intro i _ _; simp [run_resolver]
  | cons u rest ih =>
    intro i hbase hfree
    have hbase_u : base_filename ((parse u).getD fallback_url) = base :=
      hbase u (List.mem_cons_self u rest)
    have hmem : ∀ m, 1 ≤ m → m < i + 1 →
        (((List.range' 1 i).map (candidate base)).reverse ++ R).contains
          (candidate base m) = true := by
      intro m h1 h2
      rw [contains_eq_true_iff]
      apply List.mem_append_left
      rw [List.mem_reverse]
      exact List.mem_map.mpr ⟨m, List.mem_range'_1.mpr ⟨h1, by omega⟩, rfl⟩
    have hfree' :
        (((List.range' 1 i).map (candidate base)).reverse ++ R).contains
          (candidate base (i + 1)) = false := by
      rw [contains_eq_false_iff]
      intro hin
      rcases List.mem_append.mp hin with hin | hin
      · rw [List.mem_reverse] at hin
        rcases List.mem_map.mp hin with ⟨m, hm, hcm⟩
        have : m = i + 1 := candidate_injective base hcm
        rw [List.mem_range'_1] at hm
        omega
      · exact (contains_eq_false_iff.mp
          (hfree (i + 1) le_rfl (by simp))) hin
    have hfresh :
        fresh_name base (((List.range' 1 i).map (candidate base)).reverse ++ R)
          = candidate base (i + 1) := by
      apply fresh_name_finds _ _ _ (by omega) hmem hfree'
      simp
    have hcall :
        url_to_filename parse u
            (((List.range' 1 i).map (candidate base)).reverse ++ R)
          = (candidate base (i + 1),
             candidate base (i + 1)
               :: (((List.range' 1 i).map (candidate base)).reverse ++ R)) := by
      simp only [url_to_filename, hbase_u, hfresh]
    have hreg :
        candidate base (i + 1)
            :: (((List.range' 1 i).map (candidate base)).reverse ++ R)
          = ((List.range' 1 (i + 1)).map (candidate base)).reverse ++ R := by
      rw [List.range'_1_concat, List.map_append, List.reverse_append]
      simp [Nat.add_comm 1 i]
    have hrest := ih (i + 1)
      (fun v hv => hbase v (List.mem_cons_of_mem u hv))
      (fun k hk1 hk2 => hfree k (by omega) (by simp at hk2 ⊢; omega))
    simp only [run_resolver, hcall, hreg, hrest]
    rw [List.length_cons, List.range'_succ]
    have harith : i + (rest.length + 1) = i + 1 + rest.length := by omega
    rw [harith]
    simp

/-- C4: `N` calls to `url_to_filename` against one registry, all of
whose URLs derive the same base name `base` and none of whose first `N`
candidate names is already registered, return the `N` pairwise-distinct
filenames `base, base_2, …, base_N` in call order (the first unused
suffix, counting from 2), each inserted into the registry before being
returned: the final registry holds all of them in front of the initial
registry. -/
theorem same_base_calls_get_suffixes (parse : String → Option ParsedUrl)
    (urls : List String) (base : String) (R : List String)
    (hbase : ∀ u ∈ urls, base_filename ((parse u).getD fallback_url) = base)
    (hfree : ∀ k, 1 ≤ k → k ≤ urls.length →
      R.contains (candidate base k) = false) :
    (run_resolver parse urls R).1
        = (List.range' 1 urls.length).map (candidate base)
      ∧ ((run_resolver parse urls R).1).Nodup
      ∧ (run_resolver parse urls R).2
        = ((List.range' 1 urls.length).map (candidate base)).reverse ++ R := by
  have h := run_resolver_same_base_aux parse base R urls 0 hbase
    (fun k hk1 hk2 => hfree k hk1 (by omega))
  simp only [List.range'_zero, List.map_nil, List.reverse_nil,
    List.nil_append, Nat.zero_add] at h
  refine ⟨?_, ?_, ?_⟩
  · rw [h]
  · rw [h]
    exact List.Nodup.map_on
      (fun x _ y _ hxy => candidate_injective base hxy)
      (List.nodup_range' 1 urls.length)
  · rw [h]

/-- Witness for C4: three URLs all deriving base `x.com_a` against an
empty registry receive `x.com_a`, `x.com_a_2`, `x.com_a_3`, pairwise
distinct, in call order. -/
theorem same_base_calls_get_suffixes_witness :
    (run_resolver (fun _ => some ⟨some "x.com", "/a"⟩)
        ["u1", "u2", "u3"] []).1
      = ["x.com_a", "x.com_a_2", "x.com_a_3"]
      ∧ ((run_resolver (fun _ => some ⟨some "x.com", "/a"⟩)
        ["u1", "u2", "u3"] []).1).Nodup := by
  have h := same_base_calls_get_suffixes (fun _ => some ⟨some "x.com", "/a"⟩)
    ["u1", "u2", "u3"] "x.com_a" []
    (fun _ _ =>
      (by decide : base_filename ⟨some "x.com", "/a"⟩ = "x.com_a"))
    (fun k _ _ => rfl)
  refine ⟨?_, h.2.1⟩
  rw [h.1]
  decide

/-- C8: `url_to_filename` is total and always registers the name it
returns; when the URL fails to parse it proceeds with the sentinel
fallback (`http://example.com`, whose parse is a fixed value and cannot
fail), and when the URL parses without a host component the base name is
built from the placeholder host `"unknown"`. -/
theorem url_to_filename_total (parse : String → Option ParsedUrl)
    (url : String) (used : List String) :
    (url_to_filename parse url used).2
        = (url_to_filename parse url used).1 :: used
      ∧ (parse url = none →
          url_to_filename parse url used
            = (fresh_name (base_filename fallback_url) used,
               fresh_name (base_filename fallback_url) used :: used))
      ∧ (∀ p, parse url = some p → p.host = none →
          url_to_filename parse url used
            = (fresh_name (base_filename ⟨some "unknown", p.path⟩) used,
               fresh_name (base_filename ⟨some "unknown", p.path⟩) used
                 :: used)) := by
  refine ⟨by simp [url_to_filename], ?_, ?_⟩
  · intro hnone
    simp [url_to_filename, hnone]
  · intro p hsome hhost
    cases p with
    | mk host path =>
      cases hhost
      simp [url_to_filename, hsome, base_filename]

/-- Witness for C8 at a parse oracle that fails on `"bad"` and returns a
host-less URL on `"nohost"`. -/
theorem url_to_filename_total_witness :
    (url_to_filename
        (fun u => if u = "nohost" then some ⟨none, "p"⟩ else none)
        "bad" []).2
      = (url_to_filename
          (fun u => if u = "nohost" then some ⟨none, "p"⟩ else none)
          "bad" []).1 :: []
      ∧ url_to_filename
          (fun u => if u = "nohost" then some ⟨none, "p"⟩ else none)
          "bad" []
        = (fresh_name (base_filename fallback_url) [],
           fresh_name (base_filename fallback_url) [] :: [])
      ∧ url_to_filename
          (fun u => if u = "nohost" then some ⟨none, "p"⟩ else none)
          "nohost" []
        = (fresh_name (base_filename ⟨some "unknown", "p"⟩) [],
           fresh_name (base_filename ⟨some "unknown", "p"⟩) [] :: []) := by
  have h1 := url_to_filename_total
    (fun u => if u = "nohost" then some ⟨none, "p"⟩ else none) "bad" []
  have h2 := url_to_filename_total
    (fun u => if u = "nohost" then some ⟨none, "p"⟩ else none) "nohost" []
  exact ⟨h1.1, h1.2.1 (by decide), h2.2.2 ⟨none, "p"⟩ (by decide) rfl⟩

/-- A page fetch outcome as delivered by the HTTP client oracle: either
a transport error (no response obtained) or a response carrying the
status code, the readable `content-type` header if any, and a body read
that either yields the raw bytes or fails. -/
inductive FetchOutcome where
  | transport_error (msg : String)
  | response (status : Nat) (content_type : Option String)
      (body : Except String (List Nat))

/-- The mutable state `fetch_page` can touch: the shared filename
registry (`used_names`, behind the tokio mutex in the source) and the
files written to the output directory. -/
structure World where
  used_names : List String
  files : List (String × List Nat)
deriving DecidableEq

/-- The per-page result record (`PageResult` in the source). -/
structure PageResult where
  url : String
  status_code : Nat
  content_length : Nat
  mime_type : String
  error : Option String
deriving DecidableEq

/-- Translation of `fetch_page`.  `write_fails path` is the filesystem
oracle for `fs::write`: `some e` when writing `path` fails with error
`e` (no file recorded), `none` on success.  The function is total: every
arm produces a `PageResult` (the Rust function never returns `Err`),
together with the updated world. -/
def fetch_page (parse : String → Option ParsedUrl)
    (write_fails : String → Option String) (outcome : FetchOutcome)
    (url : String) (output_dir : String) (save_files : Bool)
    (w : World) : PageResult × World :=
  match outcome with
  | .transport_error e =>
      (⟨url, 0, 0, "unknown", some ("Request failed: " ++ e)⟩, w)
  | .response status_code content_type body =>
      let mime_type := content_type.getD "unknown"
      match body with
      | .error e =>
          (⟨url, status_code, 0, mime_type,
            some ("Failed to read response body: " ++ e)⟩, w)
      | .ok content =>
          let content_length := content.length
          if save_files then
            let r := url_to_filename parse url w.used_names
            let file_path := output_dir ++ "/" ++ r.1
            match write_fails file_path with
            | some e =>
                (⟨url, status_code, content_length, mime_type,
                  some ("Failed to save file: " ++ e)⟩,
                 { w with used_names := r.2 })
            | none =>
                (⟨url, status_code, content_length, mime_type, none⟩,
                 { used_names := r.2,
                   files := (file_path, content) :: w.files })
          else
            (⟨url, status_code, content_length, mime_type, none⟩, w)

/-- C3: `fetch_page` always returns a `PageResult` (it is a total
function of its oracles), its `error` field is set exactly when the
fetch (transport or body read) or the optional save step failed, and —
given that an HTTP response never carries status code 0 — a zero
`status_code` in the result implies `error` is set. -/
theorem fetch_page_error_iff (parse : String → Option ParsedUrl)
    (write_fails : String → Option String) (outcome : FetchOutcome)
    (url output_dir : String) (save_files : Bool) (w : World)
    (hstatus : ∀ s c b, outcome = .response s c b → s ≠ 0) :
    ((fetch_page parse write_fails outcome url output_dir save_files
          w).1.error.isSome
        ↔ ((∃ e, outcome = .transport_error e)
            ∨ (∃ s c e, outcome = .response s c (.error e))
            ∨ (save_files = true
                ∧ ∃ s c b, outcome = .response s c (.ok b)
                  ∧ write_fails (output_dir ++ "/"
                      ++ (url_to_filename parse url w.used_names).1)
                    ≠ none)))
      ∧ ((fetch_page parse write_fails outcome url output_dir save_files
            w).1.status_code = 0
          → (fetch_page parse write_fails outcome url output_dir
              save_files w).1.error.isSome) := by
  cases outcome with
  | transport_error e => simp [fetch_page]
  | response s c body =>
    have hs : s ≠ 0 := hstatus s c body rfl
    cases body with
    | error e => simp [fetch_page, hs]
    | ok content =>
      cases save_files with
      | false => simp [fetch_page, hs]
      | true =>
        cases hw : write_fails (output_dir ++ "/"
            ++ (url_to_filename parse url w.used_names).1) with
        | none => simp [fetch_page, hw, hs]
        | some e => simp [fetch_page, hw, hs]

/-- Witness for C3: a transport failure yields a result with `error`
set. -/
theorem fetch_page_error_iff_witness :
    (fetch_page (fun _ => none) (fun _ => none)
        (.transport_error "timeout") "u" "out" false
        ⟨[], []⟩).1.error.isSome = true := by
  have h := fetch_page_error_iff (fun _ => none) (fun _ => none)
    (.transport_error "timeout") "u" "out" false ⟨[], []⟩
    (fun _ _ _ hh => FetchOutcome.noConfusion hh)
  exact h.1.mpr (Or.inl ⟨"timeout", rfl⟩)

/-- C9: with `save_files` false, `fetch_page` leaves the shared state
completely unchanged — the registry is untouched and no file is written
— for every URL and every fetch outcome. -/
theorem fetch_page_no_save_frame (parse : String → Option ParsedUrl)
    (write_fails : String → Option String) (outcome : FetchOutcome)
    (url output_dir : String) (w : World) :
    (fetch_page parse write_fails outcome url output_dir false w).2 = w := by
  cases outcome with
  | transport_error e => rfl
  | response s c body =>
    cases body with
    | error e => rfl
    | ok content => rfl

/-- C10: when the body was read but the file write fails, the resolved
filename stays claimed in the registry (the claim is not rolled back),
no file is recorded, the result reports the failed save; and a
subsequent `url_to_filename` call for a URL resolving to the same
(previously fresh) base receives the `_2`-suffixed name even though no
file occupies the original name. -/
theorem write_failure_keeps_registry_claim (parse : String → Option ParsedUrl)
    (write_fails : String → Option String) (s : Nat) (c : Option String)
    (content : List Nat) (url url2 output_dir : String) (w : World)
    (e b : String)
    (hb : base_filename ((parse url).getD fallback_url) = b)
    (hb2 : base_filename ((parse url2).getD fallback_url) = b)
    (hfresh1 : w.used_names.contains b = false)
    (hfresh2 : w.used_names.contains (candidate b 2) = false)
    (hw : write_fails (output_dir ++ "/" ++ b) = some e) :
    (fetch_page parse write_fails (.response s c (.ok content)) url
        output_dir true w).1.error = some ("Failed to save file: " ++ e)
      ∧ (fetch_page parse write_fails (.response s c (.ok content)) url
          output_dir true w).2.used_names = b :: w.used_names
      ∧ (fetch_page parse write_fails (.response s c (.ok content)) url
          output_dir true w).2.files = w.files
      ∧ (url_to_filename parse url2
          (fetch_page parse write_fails (.response s c (.ok content)) url
            output_dir true w).2.used_names).1 = candidate b 2 := by
  have hcand1 : candidate b 1 = b := rfl
  have hname1 : fresh_name b w.used_names = b :=
    (fresh_name_finds b w.used_names 1 le_rfl
      (fun m h1 h2 => absurd h2 (by omega))
      (by rw [hcand1]; exact hfresh1) (by omega)).trans hcand1
  have hcall : url_to_filename parse url w.used_names
      = (b, b :: w.used_names) := by
    simp [url_to_filename, hb, hname1]
  have hfetch : fetch_page parse write_fails (.response s c (.ok content))
      url output_dir true w
      = (⟨url, s, content.length, c.getD "unknown",
          some ("Failed to save file: " ++ e)⟩,
         ⟨b :: w.used_names, w.files⟩) := by
    simp [fetch_page, hcall, hw]
  have hmem2 : ∀ m, 1 ≤ m → m < 2 →
      (b :: w.used_names).contains (candidate b m) = true := by
    intro m h1 h2
    have hm : m = 1 := by omega
    subst hm
    rw [hcand1, contains_eq_true_iff]
    exact List.mem_cons_self _ _
  have hfree2 : (b :: w.used_names).contains (candidate b 2) = false := by
    rw [contains_eq_false_iff]
    intro hin
    rcases List.mem_cons.mp hin with h | h
    · exact absurd (candidate_injective b (h.trans hcand1.symm)) (by omega)
    · exact contains_eq_false_iff.mp hfresh2 h
  have hname2 : fresh_name b (b :: w.used_names) = candidate b 2 :=
    fresh_name_finds b _ 2 (by omega) hmem2 hfree2
      (by simp [List.length_cons])
  refine ⟨?_, ?_, ?_, ?_⟩
  · rw [hfetch]
  · rw [hfetch]
  · rw [hfetch]
  · rw [hfetch]
    simp [url_to_filename, hb2, hname2]

/-- Witness for C10: a failed write against an empty registry leaves the
base name claimed, and the next same-base URL gets the `_2` suffix. -/
theorem write_failure_keeps_registry_claim_witness :
    (fetch_page (fun _ => some ⟨some "x.com", "/a"⟩)
        (fun _ => some "disk full") (.response 200 none (.ok [7]))
        "u1" "out" true ⟨[], []⟩).1.error
      = some "Failed to save file: disk full"
      ∧ (fetch_page (fun _ => some ⟨some "x.com", "/a"⟩)
          (fun _ => some "disk full") (.response 200 none (.ok [7]))
          "u1" "out" true ⟨[], []⟩).2.used_names = ["x.com_a"]
      ∧ (url_to_filename (fun _ => some ⟨some "x.com", "/a"⟩) "u2"
          (fetch_page (fun _ => some ⟨some "x.com", "/a"⟩)
            (fun _ => some "disk full") (.response 200 none (.ok [7]))
            "u1" "out" true ⟨[], []⟩).2.used_names).1 = "x.com_a_2" := by
  have h := write_failure_keeps_registry_claim
    (fun _ => some ⟨some "x.com", "/a"⟩) (fun _ => some "disk full")
    200 none [7] "u1" "u2" "out" ⟨[], []⟩ "disk full" "x.com_a"
    (by decide) (by decide) rfl rfl rfl
  exact ⟨h.1.trans (by decide), h.2.1, h.2.2.2.trans (by decide)⟩

/-- The success count computed at the end of `main`:
`results.iter().filter(|r| r.error.is_none()).count()`. -/
def successful_count (results : List PageResult) : Nat :=
  (results.filter (fun r => r.error.isNone)).length

/-- The failure count computed at the end of `main`:
`results.len() - successful`. -/
def failed_count (results : List PageResult) : Nat :=
  results.length - successful_count results

theorem filter_isNone_isSome_length (results : List PageResult) :
    (results.filter (fun r => r.error.isNone)).length
      + (results.filter (fun r => r.error.isSome)).length
      = results.length := by
  induction results with
  | nil => rfl
  | cons r rest ih =>
    cases h : r.error <;> simp [List.filter_cons, h] <;> omega

/-- C6: the aggregate counts are consistent: `successful + failed` is
the number of results, `failed` counts the results whose `error` is set,
and `successful` counts those without an error. -/
theorem report_counts_consistent (results : List PageResult) :
    successful_count results + failed_count results = results.length
      ∧ failed_count results
          = (results.filter (fun r => r.error.isSome)).length
      ∧ successful_count results
          = (results.filter (fun r => r.error.isNone)).length := by
  have h := filter_isNone_isSome_length results
  have hle : (results.filter (fun r => r.error.isNone)).length
      ≤ results.length := List.length_filter_le _ _
  refine ⟨?_, ?_, rfl⟩ <;>
    simp only [failed_count, successful_count] at * <;> omega

/-- Every arm of `fetch_page` records the fetched URL in the result. -/
theorem fetch_page_url_field (parse : String → Option ParsedUrl)
    (write_fails : String → Option String) (outcome : FetchOutcome)
    (url output_dir : String) (save_files : Bool) (w : World) :
    (fetch_page parse write_fails outcome url output_dir save_files
        w).1.url = url := by
  cases outcome with
  | transport_error e => rfl
  | response s c body =>
    cases body with
    | error e => rfl
    | ok content =>
      cases save_files with
      | false => rfl
      | true =>
        cases hw : write_fails (output_dir ++ "/"
            ++ (url_to_filename parse url w.used_names).1) with
        | none => simp [fetch_page, hw]
        | some e => simp [fetch_page, hw]

/-- Execution of the spawned fetch tasks in an arbitrary completion
order: `order` lists the task indices in the order their fetch bodies
run; each task reads and updates the shared world in turn.  The first
component maps each task index to its result once completed. -/
def run_in_order (parse : String → Option ParsedUrl)
    (write_fails : String → Option String) (urls : List String)
    (outcome : Nat → FetchOutcome) (output_dir : String)
    (save_files : Bool) :
    List Nat → World → (Nat → Option PageResult) × World
  | [], w => (fun _ => none, w)
  | i :: rest, w =>
    match urls[i]? with
    | none => run_in_order parse write_fails urls outcome output_dir
        save_files rest w
    | some u =>
      let r := fetch_page parse write_fails (outcome i) u output_dir
        save_files w
      let rs := run_in_order parse write_fails urls outcome output_dir
        save_files rest r.2
      (fun j => if j = i then some r.1 else rs.1 j, rs.2)

/-- The final report of `main`: the results vector is assembled by
awaiting the spawned tasks in spawn order, so entry `i` of the report is
task `i`'s result, whatever order the tasks actually completed in. -/
def final_report (parse : String → Option ParsedUrl)
    (write_fails : String → Option String) (urls : List String)
    (outcome : Nat → FetchOutcome) (output_dir : String)
    (save_files : Bool) (order : List Nat) (w : World) :
    List (Option PageResult) :=
  (List.range urls.length).map
    (run_in_order parse write_fails urls outcome output_dir save_files
      order w).1

theorem run_in_order_finds (parse : String → Option ParsedUrl)
    (write_fails : String → Option String) (urls : List String)
    (outcome : Nat → FetchOutcome) (output_dir : String)
    (save_files : Bool) :
    ∀ (order : List Nat) (w : World) (i : Nat) (u : String),
      i ∈ order → urls[i]? = some u →
      ∃ res,
        (run_in_order parse write_fails urls outcome output_dir save_files
          order w).1 i = some res ∧ res.url = u
  | [], _, i, _, hmem, _ => absurd hmem (List.not_mem_nil i)
  | j :: rest, w, i, u, hmem, hget => by
      by_cases hij : i = j
      · subst hij
        rw [run_in_order, hget]
        refine ⟨(fetch_page parse write_fails (outcome i) u output_dir
            save_files w).1, ?_, fetch_page_url_field _ _ _ _ _ _ _⟩
        simp
      · have hmem' : i ∈ rest := by
          rcases List.mem_cons.mp hmem with h | h
          · exact absurd h hij
          · exact h
        rw [run_in_order]
        cases hj : urls[j]? with
        | none =>
          exact run_in_order_finds parse write_fails urls outcome
            output_dir save_files rest w i u hmem' hget
        | some v =>
          have ih := run_in_order_finds parse write_fails urls outcome
            output_dir save_files rest
            (fetch_page parse write_fails (outcome j) v output_dir
              save_files w).2 i u hmem' hget
          simpa [hij] using ih

/-- With `save_files` off, a task's result is a pure function of its
index and URL (the shared world is never touched), so the result map
depends only on which indices executed, not in what order. -/
theorem run_in_order_no_save (parse : String → Option ParsedUrl)
    (write_fails : String → Option String) (urls : List String)
    (outcome : Nat → FetchOutcome) (output_dir : String) :
    ∀ (order : List Nat) (w : World) (q : Nat),
      (run_in_order parse write_fails urls outcome output_dir false
          order w).1 q
        = if q ∈ order then
            (urls[q]?).map (fun u =>
              (fetch_page parse write_fails (outcome q) u output_dir
                false w).1)
          else none
  | [], w, q => by simp [run_in_order]
  | j :: rest, w, q => by
      rw [run_in_order]
      cases hj : urls[j]? with
      | none =>
        rw [run_in_order_no_save parse write_fails urls outcome output_dir
          rest w q]
        by_cases hq : q = j
        · subst hq
          simp [hj]
        · simp [List.mem_cons, hq]
      | some v =>
        have hframe := fetch_page_no_save_frame parse write_fails
          (outcome j) v output_dir w
        by_cases hq : q = j
        · subst hq
          simp [hj]
        · simp only [List.mem_cons, hq, false_or, if_neg hq]
          rw [hframe]
          exact run_in_order_no_save parse write_fails urls outcome
            output_dir rest w q

/-- C5: for every completion order (any permutation of the task
indices), position `i` of the final report holds the result of the task
spawned for the `i`-th input URL — the report is in task-spawn order,
not completion order — and with `save_files` off the whole report is
identical across any two completion orders, i.e. deterministic
regardless of network timing. -/
theorem report_in_spawn_order (parse : String → Option ParsedUrl)
    (write_fails : String → Option String) (urls : List String)
    (outcome : Nat → FetchOutcome) (output_dir : String)
    (save_files : Bool) (order : List Nat) (w : World)
    (hperm : order.Perm (List.range urls.length)) :
    (∀ (i : Nat) (u : String), urls[i]? = some u →
      ∃ res : PageResult,
        (final_report parse write_fails urls outcome output_dir
          save_files order w)[i]? = some (some res) ∧ res.url = u)
    ∧ (save_files = false →
        ∀ order', order'.Perm (List.range urls.length) →
          final_report parse write_fails urls outcome output_dir
              save_files order w
            = final_report parse write_fails urls outcome output_dir
                save_files order' w) := by
  constructor
  · intro i u hget
    have hi : i < urls.length := (List.getElem?_eq_some_iff.mp hget).1
    have hmem : i ∈ order := by
      rw [hperm.mem_iff, List.mem_range]
      exact hi
    obtain ⟨res, hres, hurl⟩ := run_in_order_finds parse write_fails urls
      outcome output_dir save_files order w i u hmem hget
    refine ⟨res, ?_, hurl⟩
    rw [final_report, List.getElem?_map, List.getElem?_range hi]
    simp [hres]
  · rintro rfl order' hperm'
    unfold final_report
    apply List.map_congr_left
    intro q hq
    rw [List.mem_range] at hq
    rw [run_in_order_no_save, run_in_order_no_save]
    have h1 : q ∈ order := by rw [hperm.mem_iff, List.mem_range]; exact hq
    have h2 : q ∈ order' := by rw [hperm'.mem_iff, List.mem_range]; exact hq
    rw [if_pos h1, if_pos h2]

/-- Witness for C5 at two concrete completion orders of three URLs: the
report position of each URL matches its spawn position. -/
theorem report_in_spawn_order_witness :
    (∃ res : PageResult,
      (final_report (fun _ => none) (fun _ => none) ["a", "b", "c"]
        (fun _ => .transport_error "down") "out" false [2, 0, 1]
        ⟨[], []⟩)[1]? = some (some res) ∧ res.url = "b")
    ∧ final_report (fun _ => none) (fun _ => none) ["a", "b", "c"]
        (fun _ => .transport_error "down") "out" false [2, 0, 1] ⟨[], []⟩
      = final_report (fun _ => none) (fun _ => none) ["a", "b", "c"]
          (fun _ => .transport_error "down") "out" false [1, 2, 0]
          ⟨[], []⟩ := by
  have h := report_in_spawn_order (fun _ => none) (fun _ => none)
    ["a", "b", "c"] (fun _ => .transport_error "down") "out" false
    [2, 0, 1] ⟨[], []⟩ (by decide)
  exact ⟨h.1 1 "b" rfl, h.2 rfl [1, 2, 0] (by decide)⟩

/-- The lifecycle of one spawned task in `main`: waiting for a
semaphore permit, holding a permit while its fetch body runs, or
finished with the permit released. -/
inductive TaskState where
  | pending
  | running
  | finished
deriving DecidableEq

/-- A scheduler state: the per-task states (index = spawn order), the
semaphore's free permits, and how many tasks the await loop of `main`
has already joined. -/
structure SchedState where
  tasks : List TaskState
  permits : Nat
  joined : Nat
deriving DecidableEq

/-- The initial state: one eagerly spawned task per URL (all pending),
`K` free permits (`Semaphore::new(args.threads)`), nothing joined. -/
def init_state (n K : Nat) : SchedState :=
  ⟨List.replicate n .pending, K, 0⟩

/-- The number of tasks currently executing their fetch body. -/
def running_count (s : SchedState) : Nat :=
  (s.tasks.filter (fun t => t == .running)).length

/-- Interleaving semantics of `main`'s task system: a pending task may
acquire a free permit and start its fetch body; a running task may
finish, releasing its permit; and the await loop joins task `joined`
only once that task has finished (`task.await`).  There is no other
transition — in particular no cancellation and no early exit on
failure. -/
inductive SchedStep : SchedState → SchedState → Prop where
  | acquire (s : SchedState) (i : Nat) :
      s.tasks[i]? = some .pending → 0 < s.permits →
      SchedStep s ⟨s.tasks.set i .running, s.permits - 1, s.joined⟩
  | finish (s : SchedState) (i : Nat) :
      s.tasks[i]? = some .running →
      SchedStep s ⟨s.tasks.set i .finished, s.permits + 1, s.joined⟩
  | join (s : SchedState) :
      s.tasks[s.joined]? = some .finished →
      SchedStep s ⟨s.tasks, s.permits, s.joined + 1⟩

/-- States reachable from the initial configuration of `n` tasks and
`K` permits. -/
def sched_reachable (n K : Nat) (s : SchedState) : Prop :=
  Relation.ReflTransGen SchedStep (init_state n K) s

theorem filter_length_set (p : TaskState → Bool) :
    ∀ (l : List TaskState) (i : Nat) (a b : TaskState), l[i]? = some b →
      ((l.set i a).filter p).length + (if p b then 1 else 0)
        = (l.filter p).length + (if p a then 1 else 0)
  | [], i, _, _, h => by simp at h
  | x :: xs, 0, a, b, h => by
      simp only [List.getElem?_cons_zero, Option.some_inj] at h
      subst h
      simp only [List.set_cons_zero, List.filter_cons]
      by_cases hpa : p a = true <;> by_cases hpx : p x = true <;>
        simp [hpa, hpx]
  | x :: xs, i + 1, a, b, h => by
      simp only [List.getElem?_cons_succ] at h
      have ih := filter_length_set p xs i a b h
      simp only [List.set_cons_succ, List.filter_cons]
      by_cases hpx : p x = true <;> simp [hpx] <;> omega

/-- The inductive invariant of the scheduler: fixed task count, permit
balance (free permits plus running tasks equal `K`), and every task
below the join cursor is finished. -/
structure SchedInv (n K : Nat) (s : SchedState) : Prop where
  length_eq : s.tasks.length = n
  permits_bal : s.permits + running_count s = K
  joined_le : s.joined ≤ n
  joined_fin : ∀ i, i < s.joined → s.tasks[i]? = some .finished

theorem sched_inv_init (n K : Nat) : SchedInv n K (init_state n K) := by
  have hrc : running_count (init_state n K) = 0 := by
    simp [running_count, init_state, List.filter_replicate]
  refine ⟨by simp [init_state], ?_, by simp [init_state], ?_⟩
  · rw [hrc]
    simp [init_state]
  · intro i hi
    simp [init_state] at hi

theorem sched_inv_step {n K : Nat} {s s' : SchedState}
    (hinv : SchedInv n K s) (hstep : SchedStep s s') : SchedInv n K s' := by
  cases hstep with
  | acquire i hp hperm =>
    have hcount := filter_length_set (fun t => t == TaskState.running)
      s.tasks i TaskState.running TaskState.pending hp
    have h1 : (TaskState.pending == TaskState.running) = false := rfl
    have h2 : (TaskState.running == TaskState.running) = true := rfl
    simp only [h1, h2] at hcount
    simp at hcount
    refine ⟨by simp [hinv.length_eq], ?_, hinv.joined_le, ?_⟩
    · have hbal := hinv.permits_bal
      simp only [running_count] at hbal ⊢
      omega
    · intro j hj
      have hfin := hinv.joined_fin j hj
      have hne : i ≠ j := by
        intro hij
        subst hij
        rw [hp] at hfin
        exact TaskState.noConfusion (Option.some_inj.mp hfin)
      show (s.tasks.set i TaskState.running)[j]? = some TaskState.finished
      rw [List.getElem?_set_ne hne]
      exact hfin
  | finish i hp =>
    have hcount := filter_length_set (fun t => t == TaskState.running)
      s.tasks i TaskState.finished TaskState.running hp
    have h2 : (TaskState.running == TaskState.running) = true := rfl
    have h3 : (TaskState.finished == TaskState.running) = false := rfl
    simp only [h2, h3] at hcount
    simp at hcount
    refine ⟨by simp [hinv.length_eq], ?_, hinv.joined_le, ?_⟩
    · have hbal := hinv.permits_bal
      simp only [running_count] at hbal ⊢
      omega
    · intro j hj
      have hfin := hinv.joined_fin j hj
      by_cases hij : i = j
      · subst hij
        rw [hp] at hfin
        exact TaskState.noConfusion (Option.some_inj.mp hfin)
      · show (s.tasks.set i TaskState.finished)[j]? = some TaskState.finished
        rw [List.getElem?_set_ne hij]
        exact hfin
  | join hp =>
    have hjoined : s.joined < n := by
      have := (List.getElem?_eq_some_iff.mp hp).1
      rw [hinv.length_eq] at this
      exact this
    refine ⟨hinv.length_eq, hinv.permits_bal, ?_, ?_⟩
    · show s.joined + 1 ≤ n
      omega
    · intro j hj
      have hj2 : j < s.joined + 1 := hj
      show s.tasks[j]? = some TaskState.finished
      by_cases hjs : j = s.joined
      · subst hjs
        exact hp
      · exact hinv.joined_fin j (by omega)

theorem sched_inv_reachable {n K : Nat} {s : SchedState}
    (hreach : sched_reachable n K s) : SchedInv n K s := by
  induction hreach with
  | refl => exact sched_inv_init n K
  | tail _ hstep ih => exact sched_inv_step ih hstep

/-- C7: in every state the scheduler can reach from its initial
configuration (one eagerly spawned task per URL, `K` semaphore permits),
at most `K` fetch bodies are running at once, and once the await loop
has joined all `n` tasks — the only way `main` proceeds past the
collection loop — every task is finished: the barrier is full, with no
early exit or cancellation on individual failure. -/
theorem scheduler_bounded_and_barrier (n K : Nat) (s : SchedState)
    (hreach : sched_reachable n K s) :
    running_count s ≤ K
      ∧ (s.joined = n → ∀ t ∈ s.tasks, t = .finished) := by
  have hinv := sched_inv_reachable hreach
  constructor
  · have := hinv.permits_bal
    omega
  · intro hj t ht
    obtain ⟨i, hlen, hget⟩ := List.getElem_of_mem ht
    have hfin := hinv.joined_fin i (by rw [hj]; rw [← hinv.length_eq]; exact hlen)
    rw [List.getElem?_eq_some_iff] at hfin
    obtain ⟨h, hval⟩ := hfin
    rw [← hget]
    exact hval

/-- Witness for C7 at the initial state of two tasks and three permits:
reachability is discharged by the reflexive step. -/
theorem scheduler_bounded_and_barrier_witness :
    running_count (init_state 2 3) ≤ 3
      ∧ ((init_state 2 3).joined = 2 →
          ∀ t ∈ (init_state 2 3).tasks, t = .finished) :=
  scheduler_bounded_and_barrier 2 3 (init_state 2 3)
    Relation.ReflTransGen.refl

end SitemapCrawler
